import Mathlib

/-
Verification of the finite-field and elliptic-curve core
(src/finite_field.rs and src/point.rs).

Modelling conventions:
- Rust i32 values are modelled as Lean Int; arithmetic overflow of add, sub,
  mul and pow follows the release-mode semantics of the compiled program:
  results wrap to the two complement 32-bit range (wrap32 below).
  Operations that panic in every build mode (the explicit panic macro on
  mismatched moduli, remainder by zero, and the remainder overflow case of
  dividend MIN with divisor -1, whose guard is emitted regardless of
  overflow checks) are modelled as error results.
- Rust u32 prime is modelled as Nat; the cast prime as i32 is i32OfU32.
- rem_euclid on i32 agrees with Lean Int.emod (the % notation) for a nonzero
  modulus: both produce the least nonnegative remainder.
- BigInt coordinates in point.rs are arbitrary-precision, modelled as Int.
  BigInt division truncates toward zero, which is Int.tdiv.
- Rust Result / panics become explicit result types with ok and error
  constructors; unwrap of an error (a panic) becomes none.
-/

namespace BtcRust

/-- Two-complement wrap of an integer into the signed 32-bit range,
the release-mode result of an overflowing i32 operation. -/
def wrap32 (x : Int) : Int := (x + 2 ^ 31) % 2 ^ 32 - 2 ^ 31

/-- The value of `p as i32` for a u32 value p: bitwise reinterpretation. -/
def i32OfU32 (p : Nat) : Int := wrap32 p

/-- FieldElement from src/finite_field.rs: num is an i32, prime a u32. -/
structure FieldElement where
  num : Int
  prime : Nat
deriving DecidableEq

/-- The panic conditions of the field operations: the explicit panic on
mismatched moduli, and the rem_euclid panics (remainder by zero, or the
remainder overflow at dividend MIN and divisor -1), which fire in every
build mode. -/
inductive FFError where
  | incompatibleField
  | remPanic
deriving DecidableEq

/-- Result of a field operation: a value, or a panic condition. -/
inductive FFResult where
  | ok (fe : FieldElement)
  | error (e : FFError)
deriving DecidableEq

/-- i32::rem_euclid(x, q): panics (none) when q is zero, and in the
remainder overflow case x = MIN, q = -1 (this guard fires in every build
mode, since the underlying machine remainder would be undefined);
otherwise the least nonnegative remainder, which is Int.emod. -/
def remEuclid (x q : Int) : Option Int :=
  if q = 0 then none
  else if x = -(2 ^ 31) ∧ q = -1 then none
  else some (x % q)

/-- The final step shared by every field operation: the result of the last
rem_euclid call becomes the new element, and its panic propagates. -/
def buildElem (p : Nat) : Option Int → FFResult
  | some n => .ok ⟨n, p⟩
  | none => .error .remPanic

/-- FieldElement::add: panic on mismatched primes, else
(self.num + elem.num).rem_euclid(self.prime as i32). -/
def FieldElement.add (a b : FieldElement) : FFResult :=
  if a.prime ≠ b.prime then .error .incompatibleField
  else buildElem a.prime (remEuclid (wrap32 (a.num + b.num)) (i32OfU32 a.prime))

/-- FieldElement::sub: panic on mismatched primes, else
(self.num - elem.num).rem_euclid(self.prime as i32). -/
def FieldElement.sub (a b : FieldElement) : FFResult :=
  if a.prime ≠ b.prime then .error .incompatibleField
  else buildElem a.prime (remEuclid (wrap32 (a.num - b.num)) (i32OfU32 a.prime))

/-- FieldElement::mul: panic on mismatched primes, else
(self.num * elem.num).rem_euclid(self.prime as i32). -/
def FieldElement.mul (a b : FieldElement) : FFResult :=
  if a.prime ≠ b.prime then .error .incompatibleField
  else buildElem a.prime (remEuclid (wrap32 (a.num * b.num)) (i32OfU32 a.prime))

/-- Continuation of FieldElement::pow after n = exp.rem_euclid(prime as i32
- 1): a panic of that first rem_euclid propagates; otherwise
i32::pow(self.num, n as u32) wraps (release mode) and is reduced by the
second rem_euclid. -/
def FieldElement.powAux (a : FieldElement) : Option Int → FFResult
  | none => .error .remPanic
  | some n =>
    buildElem a.prime (remEuclid (wrap32 (a.num ^ n.toNat)) (i32OfU32 a.prime))

/-- FieldElement::pow: n = exp.rem_euclid(self.prime as i32 - 1), then
i32::pow(self.num, n as u32).rem_euclid(self.prime as i32).
Both rem_euclid calls can panic; i32::pow wraps in release mode. -/
def FieldElement.pow (a : FieldElement) (exp : Int) : FFResult :=
  a.powAux (remEuclid exp (wrap32 (i32OfU32 a.prime - 1)))

/-- FieldElement::truediv: panic on mismatched primes, else
(self.num * i32::pow(elem.num, self.prime - 2)).rem_euclid(self.prime as i32).
The exponent self.prime - 2 is u32 subtraction (wrapping in release mode);
i32 products wrap in release mode; rem_euclid can panic. -/
def FieldElement.truediv (a b : FieldElement) : FFResult :=
  if a.prime ≠ b.prime then .error .incompatibleField
  else
    let e := (a.prime + 2 ^ 32 - 2) % 2 ^ 32
    let powed := wrap32 (b.num ^ e)
    let prod := wrap32 (a.num * powed)
    buildElem a.prime (remEuclid prod (i32OfU32 a.prime))

/-- Point from src/point.rs: finite point with BigInt coordinates, or the
identity. The curve coefficients A and B are passed to the operations,
mirroring the const generics of the Rust type. -/
inductive Point where
  | point (x y : Int)
  | infinity
deriving DecidableEq

/-- The error variant used by point.rs. -/
inductive Errors where
  | invalidPoint
deriving DecidableEq

/-- Result of Point::new_point. -/
inductive PointResult where
  | ok (p : Point)
  | error (e : Errors)
deriving DecidableEq

/-- Point::new_point: reject coordinates not satisfying the curve equation. -/
def Point.new_point (A B x y : Int) : PointResult :=
  if y ^ 2 ≠ x ^ 3 + A * x + B then .error .invalidPoint
  else .ok (.point x y)

/-- unwrap on a PointResult: a panic on error becomes none. -/
def PointResult.toOption : PointResult → Option Point
  | .ok p => some p
  | .error _ => none

/-- Point addition from the Add impl in src/point.rs. BigInt division
truncates toward zero (Int.tdiv); unwrap of a failed new_point is a panic,
modelled as none. -/
def Point.add (A B : Int) : Point → Point → Option Point
  | .infinity, p => some p
  | p, .infinity => some p
  | .point x1 y1, .point x2 y2 =>
    if x1 = x2 then
      if y1 = y2 then
        if y1 = 0 then some .infinity
        else
          let slope := Int.tdiv (3 * x1 ^ 2 + A) (2 * y1)
          let x3 := slope ^ 2 - 2 * x1
          let y3 := slope * (x1 - x3) - y1
          (Point.new_point A B x3 y3).toOption
      else some .infinity
    else
      let slope := Int.tdiv (y2 - y1) (x2 - x1)
      let x3 := slope ^ 2 - x1 - x2
      let y3 := slope * (x1 - x3) - y1
      (Point.new_point A B x3 y3).toOption

/-- wrap32 is the identity on values already in the signed 32-bit range. -/
theorem wrap32_eq_self {x : Int} (h1 : -(2 ^ 31) ≤ x) (h2 : x < 2 ^ 31) :
    wrap32 x = x := by
  unfold wrap32
  rw [Int.emod_eq_of_lt (by linarith) (by linarith)]
  ring

/-- The u32 to i32 cast is the identity below 2 to the 31. -/
theorem i32OfU32_small {p : Nat} (h : p < 2 ^ 31) : i32OfU32 p = p := by
  unfold i32OfU32
  have hp : (p : Int) < 2 ^ 31 := by exact_mod_cast h
  exact wrap32_eq_self (by linarith [Int.natCast_nonneg p]) hp

/-- The u32 to i32 cast subtracts 2 to the 32 on the upper half of the range. -/
theorem i32OfU32_large {p : Nat} (h1 : 2 ^ 31 ≤ p) (h2 : p < 2 ^ 32) :
    i32OfU32 p = (p : Int) - 2 ^ 32 := by
  have c1 : (2 ^ 31 : Int) ≤ p := by exact_mod_cast h1
  have c2 : (p : Int) < 2 ^ 32 := by exact_mod_cast h2
  unfold i32OfU32 wrap32
  have e1 : (p : Int) + 2 ^ 31 = ((p : Int) - 2 ^ 31) + 2 ^ 32 * 1 := by ring
  rw [e1, Int.add_mul_emod_self_left,
    Int.emod_eq_of_lt (by linarith) (by linarith)]
  ring

/-- A nonzero u32 prime casts to a nonzero i32 value. -/
theorem i32OfU32_ne_zero {p : Nat} (h0 : 0 < p) (hw : p < 2 ^ 32) :
    i32OfU32 p ≠ 0 := by
  by_cases h : p < 2 ^ 31
  · rw [i32OfU32_small h]
    exact_mod_cast h0.ne.symm
  · push_neg at h
    rw [i32OfU32_large h hw]
    have c1 : (2 ^ 31 : Int) ≤ p := by exact_mod_cast h
    have c2 : (p : Int) < 2 ^ 32 := by exact_mod_cast hw
    intro hc
    linarith

/-- Euclidean remainder is below the absolute value of the modulus. -/
theorem emod_lt_abs (x : Int) {q : Int} (hq : q ≠ 0) : x % q < |q| := by
  rcases hq.lt_or_lt with h | h
  · have h2 := Int.emod_lt_of_pos x (b := -q) (by linarith)
    rw [Int.emod_neg] at h2
    rw [abs_of_neg h]
    exact h2
  · rw [abs_of_pos h]
    exact Int.emod_lt_of_pos x h

/-- The absolute value of the cast prime never exceeds the prime itself. -/
theorem abs_i32OfU32_le {p : Nat} (hw : p < 2 ^ 32) : |i32OfU32 p| ≤ (p : Int) := by
  by_cases h : p < 2 ^ 31
  · rw [i32OfU32_small h, abs_of_nonneg (by positivity)]
  · push_neg at h
    have c1 : (2 ^ 31 : Int) ≤ p := by exact_mod_cast h
    have c2 : (p : Int) < 2 ^ 32 := by exact_mod_cast hw
    rw [i32OfU32_large h hw, abs_of_neg (by linarith)]
    linarith

/-- rem_euclid by the cast prime lands in the interval from 0 up to prime. -/
theorem emod_i32OfU32_range {p : Nat} (x : Int) (hq : i32OfU32 p ≠ 0)
    (hw : p < 2 ^ 32) :
    0 ≤ x % i32OfU32 p ∧ x % i32OfU32 p < (p : Int) :=
  ⟨Int.emod_nonneg x hq, lt_of_lt_of_le (emod_lt_abs x hq) (abs_i32OfU32_le hw)⟩

/-- Off the two panic cases, remEuclid is the Euclidean remainder. -/
theorem remEuclid_eq_some {x q : Int} (hq : q ≠ 0)
    (hov : ¬(x = -(2 ^ 31) ∧ q = -1)) : remEuclid x q = some (x % q) := by
  unfold remEuclid
  rw [if_neg hq, if_neg hov]

/-- remEuclid never panics when the divisor is neither 0 nor -1. -/
theorem remEuclid_eq_some_of_ne_neg_one (x : Int) {q : Int} (hq : q ≠ 0)
    (h1 : q ≠ -1) : remEuclid x q = some (x % q) :=
  remEuclid_eq_some hq (fun hc => h1 hc.2)

/-- A value produced by remEuclid is the Euclidean remainder by a nonzero
divisor. -/
theorem remEuclid_some_imp {x q n : Int} (h : remEuclid x q = some n) :
    q ≠ 0 ∧ n = x % q := by
  unfold remEuclid at h
  split at h
  · exact Option.noConfusion h
  · split at h
    · exact Option.noConfusion h
    · rename_i hq hov
      refine ⟨hq, ?_⟩
      injection h with h2
      exact h2.symm

/-- buildElem on a produced remainder. -/
theorem buildElem_some (p : Nat) (n : Int) :
    buildElem p (some n) = .ok ⟨n, p⟩ := rfl

/-- buildElem on a panic. -/
theorem buildElem_none (p : Nat) : buildElem p none = .error .remPanic := rfl

/-- A buildElem value comes from a produced remainder. -/
theorem buildElem_ok {p : Nat} {o : Option Int} {r : FieldElement}
    (h : buildElem p o = .ok r) : o = some r.num ∧ r = ⟨r.num, p⟩ := by
  cases o with
  | none => exact FFResult.noConfusion h
  | some n =>
    injection h with h2
    subst h2
    exact ⟨rfl, rfl⟩

/-- powAux when the exponent reduction panics. -/
theorem powAux_none (a : FieldElement) :
    a.powAux none = .error .remPanic := rfl

/-- powAux when the exponent reduction produces a value. -/
theorem powAux_some (a : FieldElement) (n : Int) :
    a.powAux (some n) =
      buildElem a.prime
        (remEuclid (wrap32 (a.num ^ n.toNat)) (i32OfU32 a.prime)) := rfl

/-- 4294967295 is the unique u32 value casting to -1; every other u32
modulus casts to something else.  Since 4294967295 factors as
3 * 5 * 17 * 257 * 65537, no prime modulus casts to -1. -/
theorem i32OfU32_ne_neg_one {p : Nat} (hw : p < 2 ^ 32)
    (hne : p ≠ 2 ^ 32 - 1) : i32OfU32 p ≠ -1 := by
  by_cases h : p < 2 ^ 31
  · rw [i32OfU32_small h]
    have h0 : (0 : Int) ≤ p := Int.natCast_nonneg p
    intro hc
    linarith
  · push_neg at h
    rw [i32OfU32_large h hw]
    have hn : p ≤ 2 ^ 32 - 2 := by omega
    have c2 : (p : Int) ≤ 4294967294 := by exact_mod_cast hn
    intro hc
    have h32 : (2 : Int) ^ 32 = 4294967296 := by norm_num
    linarith

/-- A failed new_point, unwrapped, never yields the identity point. -/
theorem new_point_toOption_ne_some_infinity (A B x y : Int) :
    (Point.new_point A B x y).toOption ≠ some Point.infinity := by
  unfold Point.new_point
  by_cases h : y ^ 2 = x ^ 3 + A * x + B
  · rw [if_neg (not_not_intro h)]
    simp [PointResult.toOption]
  · rw [if_pos h]
    simp [PointResult.toOption]

/-- C3: the claim states mul and truediv are exact with no fixed-width
wraparound, and in particular (3,31) divided by (24,31) gives (4,31), as the
repository test truediv_field_elements also asserts.  The code computes
i32::pow(24, 29), which overflows i32 (debug builds panic; release builds
wrap, and 24 to the 29 is divisible by 2 to the 32, so the wrapped value is
0), giving FieldElement(0,31) instead of the exact FieldElement(4,31). -/
theorem c3_truediv_overflow :
    FieldElement.truediv ⟨3, 31⟩ ⟨24, 31⟩ = .ok ⟨0, 31⟩ ∧
    3 * (24 : Int) ^ 29 % 31 = 4 ∧ (0 : Int) ≠ 4 := by decide

/-- C6: new_point fails with InvalidPoint exactly when the curve equation
does not hold, and otherwise returns the supplied coordinates unchanged. -/
theorem c6_new_point_validation (A B x y : Int) :
    (Point.new_point A B x y = .error .invalidPoint ↔
      y ^ 2 ≠ x ^ 3 + A * x + B) ∧
    (y ^ 2 = x ^ 3 + A * x + B → Point.new_point A B x y = .ok (.point x y)) := by
  unfold Point.new_point
  by_cases h : y ^ 2 = x ^ 3 + A * x + B
  · rw [if_neg (not_not_intro h)]
    exact ⟨iff_of_false (fun hc => PointResult.noConfusion hc)
      (not_not_intro h), fun _ => rfl⟩
  · rw [if_pos h]
    exact ⟨iff_of_true rfl h, fun hc => absurd hc h⟩

/-- C6 witness: on the curve A=5, B=7 the point (-1,-1) is accepted. -/
theorem c6_witness :
    Point.new_point 5 7 (-1) (-1) = .ok (.point (-1) (-1)) :=
  (c6_new_point_validation 5 7 (-1) (-1)).2 (by decide)

/-- C7: adding the identity on either side returns the other operand. -/
theorem c7_identity_laws (A B : Int) (p : Point) :
    Point.add A B .infinity p = some p ∧ Point.add A B p .infinity = some p := by
  cases p
  · exact ⟨rfl, rfl⟩
  · exact ⟨rfl, rfl⟩

/-- C8: for finite points sharing an x coordinate, the sum is the identity
exactly in the two vertical cases: equal points with y zero, or distinct
y coordinates; in particular doubling a point with y zero gives the
identity, and adding a point to its negation gives the identity. -/
theorem c8_vertical_cases (A B x y1 y2 y : Int) :
    (Point.add A B (.point x y1) (.point x y2) = some .infinity ↔
      (y1 = y2 ∧ y1 = 0) ∨ y1 ≠ y2) ∧
    Point.add A B (.point x 0) (.point x 0) = some .infinity ∧
    (y ≠ 0 → Point.add A B (.point x y) (.point x (-y)) = some .infinity) := by
  have key : ∀ z1 z2 : Int,
      Point.add A B (.point x z1) (.point x z2) = some .infinity ↔
        (z1 = z2 ∧ z1 = 0) ∨ z1 ≠ z2 := by
    intro z1 z2
    simp only [Point.add, if_pos rfl]
    by_cases h : z1 = z2
    · subst h
      rw [if_pos rfl]
      by_cases h0 : z1 = 0
      · rw [if_pos h0]
        exact iff_of_true rfl (Or.inl ⟨rfl, h0⟩)
      · rw [if_neg h0]
        refine iff_of_false (new_point_toOption_ne_some_infinity A B _ _) ?_
        rintro (⟨-, hz⟩ | hne)
        · exact h0 hz
        · exact hne rfl
    · rw [if_neg h]
      exact iff_of_true rfl (Or.inr h)
  refine ⟨key y1 y2, (key 0 0).mpr (Or.inl ⟨rfl, rfl⟩), fun hy => ?_⟩
  exact (key y (-y)).mpr (Or.inr (fun hc => hy (by omega)))

/-- C8 witness: on the curve A=5, B=7, the mutual inverses (-1,1) and
(-1,-1) add to the identity. -/
theorem c8_witness :
    Point.add 5 7 (.point (-1) 1) (.point (-1) (-1)) = some .infinity :=
  (c8_vertical_cases 5 7 (-1) 0 0 1).2.2 (by decide)

/-- C10: dividing by the zero residue raises no condition at all: since
0 to a positive exponent is 0, truediv silently returns the zero element. -/
theorem c10_truediv_by_zero_silent (a b : FieldElement) (hpr : a.prime = b.prime)
    (h2 : 2 < a.prime) (hw : a.prime < 2 ^ 32) (hb : b.num = 0) :
    a.truediv b = .ok ⟨0, a.prime⟩ := by
  have he : (a.prime + 2 ^ 32 - 2) % 2 ^ 32 = a.prime - 2 := by
    have e1 : a.prime + 2 ^ 32 - 2 = (a.prime - 2) + 1 * 2 ^ 32 := by omega
    rw [e1, Nat.add_mul_mod_self_right, Nat.mod_eq_of_lt (by omega)]
  have hz : wrap32 0 = 0 := by decide
  have hrem : remEuclid 0 (i32OfU32 a.prime) = some 0 := by
    rw [remEuclid_eq_some (i32OfU32_ne_zero (by omega) hw)
      (fun hc => absurd hc.1 (by norm_num)), Int.zero_emod]
  unfold FieldElement.truediv
  rw [if_neg (not_not_intro hpr)]
  simp only [he, hb, zero_pow (by omega : a.prime - 2 ≠ 0), hz, mul_zero,
    hrem, buildElem_some]

/-- C10 witness: in the field of order 7, (5,7) divided by (0,7) silently
returns (0,7). -/
theorem c10_witness : FieldElement.truediv ⟨5, 7⟩ ⟨0, 7⟩ = .ok ⟨0, 7⟩ :=
  c10_truediv_by_zero_silent ⟨5, 7⟩ ⟨0, 7⟩ rfl (by decide) (by decide) rfl

/-- C4: whenever add, sub, mul, pow or truediv produces a value, its num
lies in the interval from 0 up to the prime: the final rem_euclid by the
cast prime always normalizes into that range, also for negative operands. -/
theorem c4_result_range (a b : FieldElement) (exp : Int) (r : FieldElement)
    (_h0 : 0 < a.prime) (hw : a.prime < 2 ^ 32) :
    (a.add b = .ok r → 0 ≤ r.num ∧ r.num < (a.prime : Int)) ∧
    (a.sub b = .ok r → 0 ≤ r.num ∧ r.num < (a.prime : Int)) ∧
    (a.mul b = .ok r → 0 ≤ r.num ∧ r.num < (a.prime : Int)) ∧
    (a.pow exp = .ok r → 0 ≤ r.num ∧ r.num < (a.prime : Int)) ∧
    (a.truediv b = .ok r → 0 ≤ r.num ∧ r.num < (a.prime : Int)) := by
  refine ⟨?_, ?_, ?_, ?_, ?_⟩ <;> intro h
  · simp only [FieldElement.add] at h
    split at h
    · exact FFResult.noConfusion h
    · obtain ⟨hn, -⟩ := buildElem_ok h
      obtain ⟨hq, hn2⟩ := remEuclid_some_imp hn
      rw [hn2]
      exact emod_i32OfU32_range _ hq hw
  · simp only [FieldElement.sub] at h
    split at h
    · exact FFResult.noConfusion h
    · obtain ⟨hn, -⟩ := buildElem_ok h
      obtain ⟨hq, hn2⟩ := remEuclid_some_imp hn
      rw [hn2]
      exact emod_i32OfU32_range _ hq hw
  · simp only [FieldElement.mul] at h
    split at h
    · exact FFResult.noConfusion h
    · obtain ⟨hn, -⟩ := buildElem_ok h
      obtain ⟨hq, hn2⟩ := remEuclid_some_imp hn
      rw [hn2]
      exact emod_i32OfU32_range _ hq hw
  · simp only [FieldElement.pow] at h
    rcases hE : remEuclid exp (wrap32 (i32OfU32 a.prime - 1)) with - | n
    · rw [hE, powAux_none] at h
      exact FFResult.noConfusion h
    · rw [hE, powAux_some] at h
      obtain ⟨hn, -⟩ := buildElem_ok h
      obtain ⟨hq, hn2⟩ := remEuclid_some_imp hn
      rw [hn2]
      exact emod_i32OfU32_range _ hq hw
  · simp only [FieldElement.truediv] at h
    split at h
    · exact FFResult.noConfusion h
    · obtain ⟨hn, -⟩ := buildElem_ok h
      obtain ⟨hq, hn2⟩ := remEuclid_some_imp hn
      rw [hn2]
      exact emod_i32OfU32_range _ hq hw

/-- C4 witness: (3,31) plus (5,31) is (8,31), whose num is in range. -/
theorem c4_witness :
    0 ≤ (FieldElement.mk 8 31).num ∧
      (FieldElement.mk 8 31).num < ((31 : Nat) : Int) :=
  (c4_result_range ⟨3, 31⟩ ⟨5, 31⟩ 3 ⟨8, 31⟩ (by decide) (by decide)).1
    (by decide)

/-- C9: each of add, sub, mul, truediv signals IncompatibleField exactly
when the primes of the operands differ; with equal primes (a positive
modulus below 2 to the 32 other than 4294967295) the operation always
produces a value.  The excluded modulus 4294967295 is the unique u32 value
casting to -1, where the rem_euclid overflow panic is reachable; it is
composite, so every genuine prime modulus satisfies the hypothesis. -/
theorem c9_incompatible_field (a b : FieldElement)
    (h0 : 0 < a.prime) (hw : a.prime < 2 ^ 32) (hne : a.prime ≠ 2 ^ 32 - 1) :
    ((a.add b = .error .incompatibleField ↔ a.prime ≠ b.prime) ∧
      (a.prime = b.prime → ∃ r, a.add b = .ok r)) ∧
    ((a.sub b = .error .incompatibleField ↔ a.prime ≠ b.prime) ∧
      (a.prime = b.prime → ∃ r, a.sub b = .ok r)) ∧
    ((a.mul b = .error .incompatibleField ↔ a.prime ≠ b.prime) ∧
      (a.prime = b.prime → ∃ r, a.mul b = .ok r)) ∧
    ((a.truediv b = .error .incompatibleField ↔ a.prime ≠ b.prime) ∧
      (a.prime = b.prime → ∃ r, a.truediv b = .ok r)) := by
  have hq := i32OfU32_ne_zero h0 hw
  have h1 := i32OfU32_ne_neg_one hw hne
  have hre : ∀ x : Int,
      remEuclid x (i32OfU32 a.prime) = some (x % i32OfU32 a.prime) :=
    fun x => remEuclid_eq_some_of_ne_neg_one x hq h1
  by_cases hpr : a.prime = b.prime
  · refine ⟨⟨?_, fun _ => ?_⟩, ⟨?_, fun _ => ?_⟩, ⟨?_, fun _ => ?_⟩,
      ⟨?_, fun _ => ?_⟩⟩
    · simp only [FieldElement.add, if_neg (not_not_intro hpr), hre,
        buildElem_some]
      exact iff_of_false (fun hc => FFResult.noConfusion hc)
        (not_not_intro hpr)
    · exact ⟨⟨wrap32 (a.num + b.num) % i32OfU32 a.prime, a.prime⟩,
        by simp only [FieldElement.add, if_neg (not_not_intro hpr), hre,
        buildElem_some]⟩
    · simp only [FieldElement.sub, if_neg (not_not_intro hpr), hre,
        buildElem_some]
      exact iff_of_false (fun hc => FFResult.noConfusion hc)
        (not_not_intro hpr)
    · exact ⟨⟨wrap32 (a.num - b.num) % i32OfU32 a.prime, a.prime⟩,
        by simp only [FieldElement.sub, if_neg (not_not_intro hpr), hre,
        buildElem_some]⟩
    · simp only [FieldElement.mul, if_neg (not_not_intro hpr), hre,
        buildElem_some]
      exact iff_of_false (fun hc => FFResult.noConfusion hc)
        (not_not_intro hpr)
    · exact ⟨⟨wrap32 (a.num * b.num) % i32OfU32 a.prime, a.prime⟩,
        by simp only [FieldElement.mul, if_neg (not_not_intro hpr), hre,
        buildElem_some]⟩
    · simp only [FieldElement.truediv, if_neg (not_not_intro hpr), hre,
        buildElem_some]
      exact iff_of_false (fun hc => FFResult.noConfusion hc)
        (not_not_intro hpr)
    · exact ⟨⟨wrap32 (a.num *
          wrap32 (b.num ^ ((a.prime + 2 ^ 32 - 2) % 2 ^ 32))) %
            i32OfU32 a.prime, a.prime⟩,
        by simp only [FieldElement.truediv, if_neg (not_not_intro hpr), hre,
        buildElem_some]⟩
  · refine ⟨⟨?_, fun hc => absurd hc hpr⟩, ⟨?_, fun hc => absurd hc hpr⟩,
      ⟨?_, fun hc => absurd hc hpr⟩, ⟨?_, fun hc => absurd hc hpr⟩⟩
    · simp only [FieldElement.add, if_pos hpr]
      exact iff_of_true trivial hpr
    · simp only [FieldElement.sub, if_pos hpr]
      exact iff_of_true trivial hpr
    · simp only [FieldElement.mul, if_pos hpr]
      exact iff_of_true trivial hpr
    · simp only [FieldElement.truediv, if_pos hpr]
      exact iff_of_true trivial hpr

/-- C9 witness: mismatched primes signal IncompatibleField; matched primes
produce a value. -/
theorem c9_witness :
    FieldElement.add ⟨3, 7⟩ ⟨5, 11⟩ = .error .incompatibleField ∧
    ∃ r, FieldElement.truediv ⟨3, 7⟩ ⟨5, 7⟩ = .ok r :=
  ⟨(c9_incompatible_field ⟨3, 7⟩ ⟨5, 11⟩ (by decide) (by decide)
      (by decide)).1.1.mpr (by decide),
   (c9_incompatible_field ⟨3, 7⟩ ⟨5, 7⟩ (by decide) (by decide)
      (by decide)).2.2.2.2 rfl⟩

/-- C5 counterexample: the claim says pow always equals the exponent-reduced
power taken modulo the prime.  At (3,31) with exponent 29 the reduced
exponent is 29 and the exact value is 21, but i32::pow(3, 29) overflows i32:
the release-mode wrapped value reduces to 27 modulo 31 (debug builds
panic), so the code returns (27,31), not (21,31). -/
theorem c5_counterexample :
    FieldElement.pow ⟨3, 31⟩ 29 = .ok ⟨27, 31⟩ ∧
    (3 : Int) ^ ((29 : Int) % ((31 : Int) - 1)).toNat % 31 = 21 ∧
    (27 : Int) ≠ 21 := by decide

/-- C5 amended: when the reduced power fits in i32 (no overflow) and the
prime is between 2 and 2 to the 31, pow equals the num raised to the
Euclidean-reduced exponent, reduced modulo the prime; the Fermat identity
pow(prime-1) = (1, prime) holds for every element of such a field (the
reduced exponent is 0), and (17,31) cubed is (15,31). -/
theorem c5_pow_reduction (a : FieldElement) (exp : Int)
    (h2 : 2 ≤ a.prime) (hp : a.prime < 2 ^ 31) :
    ((-(2 ^ 31) ≤ a.num ^ (exp % ((a.prime : Int) - 1)).toNat ∧
        a.num ^ (exp % ((a.prime : Int) - 1)).toNat < 2 ^ 31) →
      a.pow exp =
        .ok ⟨a.num ^ (exp % ((a.prime : Int) - 1)).toNat % (a.prime : Int),
          a.prime⟩) ∧
    a.pow ((a.prime : Int) - 1) = .ok ⟨1, a.prime⟩ ∧
    FieldElement.pow ⟨17, 31⟩ 3 = .ok ⟨15, 31⟩ := by
  have c2 : (2 : Int) ≤ (a.prime : Int) := by exact_mod_cast h2
  have cp : (a.prime : Int) < 2 ^ 31 := by exact_mod_cast hp
  have hq : i32OfU32 a.prime = (a.prime : Int) := i32OfU32_small hp
  have hm : wrap32 ((a.prime : Int) - 1) = (a.prime : Int) - 1 :=
    wrap32_eq_self (by linarith) (by linarith)
  have hm0 : (a.prime : Int) - 1 ≠ 0 := by linarith
  have hq0 : (a.prime : Int) ≠ 0 := by linarith
  have hrem1 : ∀ x : Int, remEuclid x ((a.prime : Int) - 1) =
      some (x % ((a.prime : Int) - 1)) :=
    fun x => remEuclid_eq_some_of_ne_neg_one x hm0 (by linarith)
  have hrem2 : ∀ x : Int, remEuclid x (a.prime : Int) =
      some (x % (a.prime : Int)) :=
    fun x => remEuclid_eq_some_of_ne_neg_one x hq0 (by linarith)
  refine ⟨?_, ?_, by decide⟩
  · intro hfit
    simp only [FieldElement.pow, hq, hm, hrem1, powAux_some, hrem2,
      buildElem_some, wrap32_eq_self hfit.1 hfit.2]
  · have h1 : wrap32 1 = 1 := by decide
    simp only [FieldElement.pow, hq, hm, hrem1, Int.emod_self, powAux_some,
      Int.toNat_zero, pow_zero, h1, hrem2, buildElem_some]
    rw [Int.emod_eq_of_lt (by norm_num) (by linarith)]

/-- C5 witness: in the field of order 7, pow at the Fermat exponent
returns the unit element. -/
theorem c5_witness :
    FieldElement.pow ⟨2, 7⟩ (((7 : Nat) : Int) - 1) = .ok ⟨1, 7⟩ :=
  (c5_pow_reduction ⟨2, 7⟩ 0 (by decide) (by decide)).2.1

/-- C1 counterexample: the claim says doubling an on-curve point with
nonzero y always succeeds.  On the curve A=0, B=2 the point (-1,1) is on
the curve, but the tangent slope 3/2 is not an integer: BigInt division
truncates it to 1, the computed point (3,-5) fails the curve check, and the
unwrap panics (modelled as none). -/
theorem c1_counterexample :
    Point.add 0 2 (.point (-1) 1) (.point (-1) 1) = none ∧
    (1 : Int) ^ 2 = (-1 : Int) ^ 3 + 0 * (-1) + 2 := by decide

/-- C1 amended: doubling an on-curve point with nonzero y whose tangent
numerator 3 x squared + A is exactly divisible by 2 y returns the point
built from the exact slope s, namely (s^2 - 2x, s(x - x3) - y), and that
point satisfies the curve equation; the concrete doubling of (-1,-1) on
A=5, B=7 gives (18,77).  When the division is inexact the truncated slope
can make the construction fail, as the counterexample shows. -/
theorem c1_doubling_exact (A B x y : Int) (hy : y ≠ 0)
    (hdvd : 2 * y ∣ 3 * x ^ 2 + A) (hcv : y ^ 2 = x ^ 3 + A * x + B) :
    (∃ s : Int, 2 * y * s = 3 * x ^ 2 + A ∧
      (s * (x - (s ^ 2 - 2 * x)) - y) ^ 2 =
        (s ^ 2 - 2 * x) ^ 3 + A * (s ^ 2 - 2 * x) + B ∧
      Point.add A B (.point x y) (.point x y) =
        some (.point (s ^ 2 - 2 * x) (s * (x - (s ^ 2 - 2 * x)) - y))) ∧
    Point.add 5 7 (.point (-1) (-1)) (.point (-1) (-1)) =
      some (.point 18 77) := by
  obtain ⟨s, hs⟩ := hdvd
  have h2y : (2 : Int) * y ≠ 0 := by
    intro hc
    exact hy (by linarith)
  have hsl : Int.tdiv (3 * x ^ 2 + A) (2 * y) = s := by
    rw [hs]
    exact Int.mul_tdiv_cancel_left s h2y
  have honc : (s * (x - (s ^ 2 - 2 * x)) - y) ^ 2 =
      (s ^ 2 - 2 * x) ^ 3 + A * (s ^ 2 - 2 * x) + B := by
    linear_combination hcv + (s ^ 2 - 3 * x) * hs.symm
  refine ⟨⟨s, hs.symm, honc, ?_⟩, by decide⟩
  simp only [Point.add, if_pos rfl, if_neg hy, hsl]
  rw [Point.new_point, if_neg (not_not_intro honc)]
  rfl

/-- C1 witness: the amended doubling law applied to (-1,-1) on A=5, B=7. -/
theorem c1_witness :
    (∃ s : Int, 2 * (-1) * s = 3 * (-1 : Int) ^ 2 + 5 ∧
      (s * (-1 - (s ^ 2 - 2 * (-1))) - (-1)) ^ 2 =
        (s ^ 2 - 2 * (-1)) ^ 3 + 5 * (s ^ 2 - 2 * (-1)) + 7 ∧
      Point.add 5 7 (.point (-1) (-1)) (.point (-1) (-1)) =
        some (.point (s ^ 2 - 2 * (-1)) (s * (-1 - (s ^ 2 - 2 * (-1))) - (-1)))) ∧
    Point.add 5 7 (.point (-1) (-1)) (.point (-1) (-1)) =
      some (.point 18 77) :=
  c1_doubling_exact 5 7 (-1) (-1) (by decide) ⟨-4, by decide⟩ (by decide)

/-- C2 counterexample: the claim says addition of points with distinct x
uses exact rational division.  On the curve A=0, B=9 the points (-2,1) and
(6,15) are both on the curve, but the chord slope 14/8 is not an integer:
BigInt division truncates it to 1, the computed point (-3,0) fails the
curve check, and the unwrap panics (modelled as none). -/
theorem c2_counterexample :
    Point.add 0 9 (.point (-2) 1) (.point 6 15) = none ∧
    (1 : Int) ^ 2 = (-2 : Int) ^ 3 + 0 * (-2) + 9 ∧
    (15 : Int) ^ 2 = (6 : Int) ^ 3 + 0 * 6 + 9 := by decide

/-- C2 amended: adding two on-curve points with distinct x whose chord
numerator y2 - y1 is exactly divisible by x2 - x1 returns the point built
from the exact slope s, namely (s^2 - x1 - x2, s(x1 - x3) - y1); the
concrete sum of (2,5) and (-1,-1) on A=5, B=7 is (3,-7).  When the division
is inexact the truncated slope can make the construction fail, as the
counterexample shows. -/
theorem c2_addition_exact (A B x1 y1 x2 y2 : Int) (hx : x1 ≠ x2)
    (hdvd : x2 - x1 ∣ y2 - y1)
    (h1 : y1 ^ 2 = x1 ^ 3 + A * x1 + B) (h2 : y2 ^ 2 = x2 ^ 3 + A * x2 + B) :
    (∃ s : Int, s * (x2 - x1) = y2 - y1 ∧
      (s * (x1 - (s ^ 2 - x1 - x2)) - y1) ^ 2 =
        (s ^ 2 - x1 - x2) ^ 3 + A * (s ^ 2 - x1 - x2) + B ∧
      Point.add A B (.point x1 y1) (.point x2 y2) =
        some (.point (s ^ 2 - x1 - x2)
          (s * (x1 - (s ^ 2 - x1 - x2)) - y1))) ∧
    Point.add 5 7 (.point 2 5) (.point (-1) (-1)) = some (.point 3 (-7)) := by
  obtain ⟨s, hs⟩ := hdvd
  have hd : x2 - x1 ≠ 0 := sub_ne_zero.mpr (Ne.symm hx)
  have hsl : Int.tdiv (y2 - y1) (x2 - x1) = s := by
    rw [hs]
    exact Int.mul_tdiv_cancel_left s hd
  have h3 : y2 - y1 = s * (x2 - x1) := by linarith [hs]
  have key : (x1 - x2) *
      ((s * (x1 - (s ^ 2 - x1 - x2)) - y1) ^ 2 -
        ((s ^ 2 - x1 - x2) ^ 3 + A * (s ^ 2 - x1 - x2) + B)) = 0 := by
    linear_combination ((s ^ 2 - 2 * x1 - x2) + (x1 - x2)) * h1
      - (s ^ 2 - 2 * x1 - x2) * h2
      + (s ^ 2 - 2 * x1 - x2) * (2 * y2 - (y2 - y1 - s * (x2 - x1))) * h3
  have honc : (s * (x1 - (s ^ 2 - x1 - x2)) - y1) ^ 2 =
      (s ^ 2 - x1 - x2) ^ 3 + A * (s ^ 2 - x1 - x2) + B := by
    rcases mul_eq_zero.mp key with hz | hz
    · exact absurd hz (sub_ne_zero.mpr hx)
    · linarith [hz]
  refine ⟨⟨s, by linarith [hs], honc, ?_⟩, by decide⟩
  simp only [Point.add, if_neg hx, hsl]
  rw [Point.new_point, if_neg (not_not_intro honc)]
  rfl

/-- C2 witness: the amended addition law applied to (2,5) and (-1,-1)
on A=5, B=7. -/
theorem c2_witness :
    (∃ s : Int, s * (-1 - 2) = -1 - 5 ∧
      (s * (2 - (s ^ 2 - 2 - -1)) - 5) ^ 2 =
        (s ^ 2 - 2 - -1) ^ 3 + 5 * (s ^ 2 - 2 - -1) + 7 ∧
      Point.add 5 7 (.point 2 5) (.point (-1) (-1)) =
        some (.point (s ^ 2 - 2 - -1) (s * (2 - (s ^ 2 - 2 - -1)) - 5))) ∧
    Point.add 5 7 (.point 2 5) (.point (-1) (-1)) = some (.point 3 (-7)) :=
  c2_addition_exact 5 7 2 5 (-1) (-1) (by decide) ⟨2, by decide⟩
    (by decide) (by decide)

end BtcRust
